import Mathlib

/-!
Verification of the edit-history reconstruction engine of `edit_data`.

The Python source (`src/edit_data/edits.py`, `types.py`, `fake_it.py`) is
shallowly embedded here:
  * Python `str` buffers become `List Char`; slicing `s[:j]` / `s[j:]`
    keeps Python's clamping and negative-index semantics (`pySliceTo`,
    `pySliceFrom`).
  * `datetime` values are identified with their millisecond-epoch integers
    (`Int`), which is how they are persisted and compared.
  * Python `dict[Path, ...]` (insertion ordered, unique keys) becomes an
    association list `List (String × _)` with `dictLookup`.
  * assertions and raised exceptions become `Except` errors.
Field and function names follow the source; `Range.end` is renamed
`Range.stop` because `end` is a Lean keyword.
-/

namespace EditData

/-- `Position` from `edits.py` (line/character, both Python ints). -/
structure Position where
  line : Int
  character : Int
deriving DecidableEq, Repr

/-- `Range` from `edits.py`; Python's `end` field is called `stop`. -/
structure Range where
  start : Position
  stop : Position
deriving DecidableEq, Repr

/-- `Range.immediately_before` from `edits.py`. -/
def Range.immediately_before (self other : Range) : Bool :=
  if self.stop.line = other.start.line then
    self.stop.character = other.start.character
  else if self.stop.line + 1 = other.start.line then
    other.start.character = 0
  else
    false

/-- `NewConcreteCheckpoint` from `edits.py`: a snapshot owning full text. -/
structure NewConcreteCheckpoint where
  contents : List Char
  mtime : Int
deriving DecidableEq, Repr

/-- `ConcreteCheckpoint = NewConcreteCheckpoint | SameConcreteCheckpoint`
from `edits.py`; `sameC` is the alias variant (`SameConcreteCheckpoint`),
holding its `prev` checkpoint and an `mtime`. -/
inductive ConcreteCheckpoint where
  | newC (c : NewConcreteCheckpoint)
  | sameC (prev : ConcreteCheckpoint) (mtime : Int)
deriving DecidableEq, Repr

/-- `ContentChange` from `edits.py`. `text` is a Python string. -/
structure ContentChange where
  range : Range
  text : List Char
  rangeOffset : Int
  rangeLength : Int
deriving DecidableEq, Repr

/-- `Edit` from `edits.py`. -/
structure Edit where
  file : String
  time : Int
  base_change : ConcreteCheckpoint
  changes : List ContentChange
deriving DecidableEq, Repr

/-- `FileChangeHistory` from `edits.py`. -/
structure FileChangeHistory where
  path : String
  edits_history : List Edit
  last_checkpoint : ConcreteCheckpoint
deriving DecidableEq, Repr

/-- `get_last_new_concrete_checkpoint` from `edits.py`: follow `prev`
pointers of alias checkpoints until a `NewConcreteCheckpoint` is reached. -/
def get_last_new_concrete_checkpoint : ConcreteCheckpoint → NewConcreteCheckpoint
  | .newC c => c
  | .sameC prev _ => get_last_new_concrete_checkpoint prev

/-- The index a Python slice endpoint denotes on a sequence of length
`len`: negative indices count from the end and clamp at 0; `Nat` `take` and
`drop` clamp too-large indices exactly as Python slices do. -/
def pySliceIndex (len : Nat) (i : Int) : Nat :=
  if i < 0 then ((len : Int) + i).toNat else i.toNat

/-- Python `s[:i]` on a string modelled as `List Char`. -/
def pySliceTo (s : List Char) (i : Int) : List Char :=
  s.take (pySliceIndex s.length i)

/-- Python `s[i:]` on a string modelled as `List Char`. -/
def pySliceFrom (s : List Char) (i : Int) : List Char :=
  s.drop (pySliceIndex s.length i)

/-- `apply_change` from `edits.py`:
`base[: change.rangeOffset] + change.text + base[(change.rangeOffset + change.rangeLength):]`. -/
def apply_change (base : List Char) (change : ContentChange) : List Char :=
  pySliceTo base change.rangeOffset
    ++ change.text
    ++ pySliceFrom base (change.rangeOffset + change.rangeLength)

/-- The loop inside `apply_edit` from `edits.py`. -/
def applyChangesLoop (curbase : List Char) : List ContentChange → List Char
  | [] => curbase
  | c :: cs => applyChangesLoop (apply_change curbase c) cs

/-- `apply_edit` from `edits.py`. -/
def apply_edit (base : List Char) (edit : Edit) : List Char :=
  applyChangesLoop base edit.changes

/-- `get_file_contents` from `edits.py`: replay a list of edits in order. -/
def get_file_contents (base : List Char) : List Edit → List Char
  | [] => base
  | e :: es => get_file_contents (apply_edit base e) es

/-- Errors surfaced by the query functions (`assert` failures and the
Python `IndexError` a negative out-of-range list subscript raises). -/
inductive EditErr where
  | notFound
  | indexOutOfRange
  | pyIndexError
deriving DecidableEq, Repr

/-- Python `dict` lookup on an insertion-ordered association list. -/
def dictLookup {α : Type} : List (String × α) → String → Option α
  | [], _ => none
  | (k, v) :: rest, key => if k = key then some v else dictLookup rest key

/-- The body of `get_version_at_time` from `edits.py` once the file's
history has been looked up:
  * `edit_sequence` collects edits until the first with `edit.time > time`;
  * if it is empty, resolve `last_checkpoint`;
  * otherwise walk `edit_sequence` backwards collecting edits whose
    `base_change` equals that of the last edit, stop at the first that
    differs, reverse back, and replay onto the resolved base. -/
def get_version_at_time_file (file_history : FileChangeHistory) (time : Int) : List Char :=
  let edit_sequence := file_history.edits_history.takeWhile (fun e => decide (e.time ≤ time))
  match edit_sequence.getLast? with
  | none => (get_last_new_concrete_checkpoint file_history.last_checkpoint).contents
  | some last_edit =>
    let last_edit_chain :=
      (edit_sequence.reverse.takeWhile
        (fun e => decide (e.base_change = last_edit.base_change))).reverse
    get_file_contents
      (get_last_new_concrete_checkpoint last_edit.base_change).contents
      last_edit_chain

/-- `get_version_at_time` from `edits.py`; the `assert file in
workspace_history` failure is the `notFound` error. -/
def get_version_at_time (file : String)
    (workspace_history : List (String × FileChangeHistory)) (time : Int) :
    Except EditErr (List Char) :=
  match dictLookup workspace_history file with
  | none => .error .notFound
  | some file_history => .ok (get_version_at_time_file file_history time)

/-- Python list subscription `l[i]`: negative `i` counts from the end;
out-of-range subscripts (in either direction) raise, modelled as `none`. -/
def pyListGet {α : Type} (l : List α) (i : Int) : Option α :=
  let j := if i < 0 then (l.length : Int) + i else i
  if j < 0 then none else l.get? j.toNat

/-- `get_version_at_edit` from `edits.py`: check `edit_idx <
len(edits_history)`, subscript the history with Python semantics, and
compute `get_version_at_time` for every file of the workspace at the
target edit's time. -/
def get_version_at_edit (file : String)
    (workspace_history : List (String × FileChangeHistory)) (edit_idx : Int) :
    Except EditErr (List (String × List Char)) :=
  match dictLookup workspace_history file with
  | none => .error .notFound
  | some file_history =>
    if (file_history.edits_history.length : Int) ≤ edit_idx then
      .error .indexOutOfRange
    else
      match pyListGet file_history.edits_history edit_idx with
      | none => .error .pyIndexError
      | some target_edit =>
        .ok (workspace_history.map
          (fun p => (p.1, get_version_at_time_file p.2 target_edit.time)))

/-- `total_num_edits` from `edits.py`. -/
def total_num_edits (workspace_history : List (String × FileChangeHistory)) : Nat :=
  (workspace_history.map (fun p => p.2.edits_history.length)).sum

/-- The loop inside `get_linear_file_history` from `fake_it.py`: for
character `i` of the remaining contents, advance `cur_time` by
`delta_milis`, emit an edit anchored to `concrete_orig` whose single
change carries `rangeOffset = i`, `rangeLength = 1` and the character as
`text`, and track the line/column cursor exactly as the source does. -/
def linearEditsLoop (file : String) (concrete_orig : ConcreteCheckpoint)
    (delta_milis : Int) :
    List Char → Nat → Int → Int → Int → List Edit
  | [], _, _, _, _ => []
  | ch :: rest, i, cur_time, cur_line, cur_col =>
    let new_time := cur_time + delta_milis
    let ch_range : Range := ⟨⟨cur_line, cur_col⟩, ⟨cur_line, cur_col + 1⟩⟩
    let edit : Edit := ⟨file, new_time, concrete_orig, [⟨ch_range, [ch], (i : Int), 1⟩]⟩
    let next :=
      if ch = '\n' then
        linearEditsLoop file concrete_orig delta_milis rest (i + 1) new_time (cur_line + 1) 0
      else
        linearEditsLoop file concrete_orig delta_milis rest (i + 1) new_time cur_line (cur_col + 1)
    edit :: next

/-- `get_linear_file_history` from `fake_it.py`: a history that rebuilds
`contents` one character at a time on top of one empty snapshot. -/
def get_linear_file_history (file : String) (contents : List Char)
    (start_time : Int) (delta_milis : Int) : FileChangeHistory :=
  let concrete_orig : ConcreteCheckpoint := .newC ⟨[], start_time⟩
  ⟨file, linearEditsLoop file concrete_orig delta_milis contents 0 start_time 0 0, concrete_orig⟩

/-! JSON decoding (`types.py` / `edits.py`). A decoded JSON value, the
Python exceptions record access can raise, and the record decoders. -/

/-- A JSON value, as produced by `json.load`. -/
inductive Json where
  | jstr (s : String)
  | jnum (n : Int)
  | jbool (b : Bool)
  | jnull
  | jarr (elems : List Json)
  | jobj (fields : List (String × Json))

/-- The Python errors decoding can raise: `KeyError` for a missing field,
`TypeError` for a value of the wrong shape (also standing for pydantic's
validation error on a wrongly-typed field), `ValueError` as raised
explicitly by the decoders on unknown tags, and `AssertionError`. -/
inductive PyErr where
  | keyError (key : String)
  | typeError
  | valueError (msg : String)
  | assertionError (msg : String)
deriving DecidableEq, Repr

/-- Python `obj[key]` on a decoded JSON value. -/
def jGet : Json → String → Except PyErr Json
  | .jobj fields, key =>
    match dictLookup fields key with
    | some v => .ok v
    | none => .error (.keyError key)
  | _, _ => .error .typeError

/-- Fetch a field that must hold a string. -/
def jGetStr (j : Json) (key : String) : Except PyErr String := do
  match ← jGet j key with
  | .jstr s => .ok s
  | _ => .error .typeError

/-- Fetch a field and convert it with Python `int(...)`. -/
def jGetInt (j : Json) (key : String) : Except PyErr Int := do
  match ← jGet j key with
  | .jnum n => .ok n
  | _ => .error .typeError

/-- Python `obj.get(key)` for an optional string field (absent or `null`
becomes `none`). -/
def jGetOptStr (j : Json) (key : String) : Except PyErr (Option String) :=
  match j with
  | .jobj fields =>
    match dictLookup fields key with
    | none => .ok none
    | some .jnull => .ok none
    | some (.jstr s) => .ok (some s)
    | some _ => .error .typeError
  | _ => .error .typeError

/-- Fetch a field that must hold an array. -/
def jGetArr (j : Json) (key : String) : Except PyErr (List Json) := do
  match ← jGet j key with
  | .jarr elems => .ok elems
  | _ => .error .typeError

/-- `NewConcreteCheckpoint.from_ts_dict`: reads `contents` and `mtime`. -/
def NewConcreteCheckpoint.from_ts_dict (obj : Json) :
    Except PyErr NewConcreteCheckpoint := do
  let contents ← jGetStr obj "contents"
  let mtime ← jGetInt obj "mtime"
  .ok ⟨contents.data, mtime⟩

/-- `RawSameConcreteCheckpoint` from `edits.py`. -/
structure RawSameConcreteCheckpoint where
  prevMtime : Int
  mtime : Int
deriving DecidableEq, Repr

/-- `RawSameConcreteCheckpoint.from_ts_dict`. -/
def RawSameConcreteCheckpoint.from_ts_dict (obj : Json) :
    Except PyErr RawSameConcreteCheckpoint := do
  let prevMtime ← jGetInt obj "prevMtime"
  let mtime ← jGetInt obj "mtime"
  .ok ⟨prevMtime, mtime⟩

/-- `RawConcreteCheckpoint = NewConcreteCheckpoint | RawSameConcreteCheckpoint`. -/
inductive RawConcreteCheckpoint where
  | newR (c : NewConcreteCheckpoint)
  | sameR (s : RawSameConcreteCheckpoint)
deriving DecidableEq, Repr

/-- `raw_concrete_checkpoint_from_json` from `edits.py`: dispatch on the
`type` tag; tags other than `same` / `new` raise `ValueError`. -/
def raw_concrete_checkpoint_from_json (json_data : Json) :
    Except PyErr RawConcreteCheckpoint := do
  let attempted_type ← jGet json_data "type"
  match attempted_type with
  | .jstr "same" => RawConcreteCheckpoint.sameR <$> RawSameConcreteCheckpoint.from_ts_dict json_data
  | .jstr "new" => RawConcreteCheckpoint.newR <$> NewConcreteCheckpoint.from_ts_dict json_data
  | _ => .error (.valueError "Unknown checkpoint type")

/-- `LocalChangeMetadata` from `types.py` (its constant `type` tag is
implicit in the variant). -/
structure LocalChangeMetadata where
  hostname : String
  os_username : String
  workspace_name : String
deriving DecidableEq, Repr

/-- `LocalChangeMetadata.from_ts_dict`. -/
def LocalChangeMetadata.from_ts_dict (obj : Json) :
    Except PyErr LocalChangeMetadata := do
  let hostname ← jGetStr obj "hostname"
  let os_username ← jGetStr obj "osUsername"
  let workspace_name ← jGetStr obj "workspaceName"
  .ok ⟨hostname, os_username, workspace_name⟩

/-- `Remote` from `types.py`. -/
structure Remote where
  name : String
  fetch_url : Option String
  push_url : Option String
deriving DecidableEq, Repr

/-- `Remote.from_ts_dict`: `name` is required, the URLs use `.get`. -/
def Remote.from_ts_dict (obj : Json) : Except PyErr Remote := do
  let name ← jGetStr obj "name"
  let fetch_url ← jGetOptStr obj "fetchUrl"
  let push_url ← jGetOptStr obj "pushUrl"
  .ok ⟨name, fetch_url, push_url⟩

/-- `GitChangeMetadata` from `types.py`. -/
structure GitChangeMetadata where
  hostname : String
  os_username : String
  workspace_name : String
  head : String
  last_tag : Option String
  remotes : List Remote
deriving DecidableEq, Repr

/-- `GitChangeMetadata.from_ts_dict`. -/
def GitChangeMetadata.from_ts_dict (obj : Json) :
    Except PyErr GitChangeMetadata := do
  let hostname ← jGetStr obj "hostname"
  let os_username ← jGetStr obj "osUsername"
  let workspace_name ← jGetStr obj "workspaceName"
  let head ← jGetStr obj "head"
  let last_tag ← jGetOptStr obj "lastTag"
  let remote_objs ← jGetArr obj "remotes"
  let remotes ← remote_objs.mapM Remote.from_ts_dict
  .ok ⟨hostname, os_username, workspace_name, head, last_tag, remotes⟩

/-- `ChangeMetadata = GitChangeMetadata | LocalChangeMetadata`. -/
inductive ChangeMetadata where
  | gitMeta (m : GitChangeMetadata)
  | localMeta (m : LocalChangeMetadata)
deriving DecidableEq, Repr

/-- `metadata_from_ts_dict` from `types.py`: dispatch on the `type` tag;
tags other than `git` / `local` raise `ValueError`. -/
def metadata_from_ts_dict (obj : Json) : Except PyErr ChangeMetadata := do
  let attempted_type ← jGet obj "type"
  match attempted_type with
  | .jstr "git" => ChangeMetadata.gitMeta <$> GitChangeMetadata.from_ts_dict obj
  | .jstr "local" => ChangeMetadata.localMeta <$> LocalChangeMetadata.from_ts_dict obj
  | _ => .error (.valueError "Unknown metadata type")

/-- `WorkspaceChangeHistory` from `types.py`. -/
structure WorkspaceChangeHistory where
  metadata : ChangeMetadata
  files : List FileChangeHistory
deriving DecidableEq, Repr

/-- The condition checked by the `files_must_be_sorted` validator of
`types.py`: `all(files[i].path < files[i+1].path for i in range(len-1))`,
i.e. adjacent paths strictly ascending. -/
def filesSorted : List FileChangeHistory → Bool
  | [] => true
  | [_] => true
  | a :: b :: rest => decide (a.path < b.path) && filesSorted (b :: rest)

/-- Construction of a `WorkspaceChangeHistory` through pydantic, running
the `files_must_be_sorted` validator; its `assert` failure surfaces as an
error. -/
def mkWorkspaceChangeHistory (metadata : ChangeMetadata)
    (files : List FileChangeHistory) : Except PyErr WorkspaceChangeHistory :=
  if filesSorted files then .ok ⟨metadata, files⟩
  else .error (.assertionError "Files in WorkspaceChangeHistory must be sorted by path")

/-- `MalformedPatchError` of the specification's §4.2 / §7 taxonomy. -/
inductive PatchErr where
  | malformedPatch
deriving DecidableEq, Repr

/-- Modelled from the spec: the strict-validation patch applier of
§4.2 — `rangeOffset` and `rangeOffset + rangeLength` must lie within
`[0, len(buffer)]`, out-of-range values are a `MalformedPatchError`.
This policy is absent from the source: `apply_change` in `edits.py`
validates nothing and clamps via slice semantics. -/
def apply_change_strict (base : List Char) (change : ContentChange) :
    Except PatchErr (List Char) :=
  if 0 ≤ change.rangeOffset ∧ change.rangeOffset ≤ (base.length : Int)
      ∧ 0 ≤ change.rangeOffset + change.rangeLength
      ∧ change.rangeOffset + change.rangeLength ≤ (base.length : Int) then
    .ok (base.take change.rangeOffset.toNat
      ++ change.text
      ++ base.drop (change.rangeOffset + change.rangeLength).toNat)
  else
    .error .malformedPatch

/-- A chain of alias checkpoints: one `sameC` hop per listed `mtime`,
ending at the given checkpoint. -/
def chainAliases : List Int → ConcreteCheckpoint → ConcreteCheckpoint
  | [], c => c
  | m :: ms, c => .sameC (chainAliases ms c) m

/-! Helper lemmas shared by the claim theorems. -/

theorem applyChangesLoop_eq_foldl :
    ∀ (cs : List ContentChange) (base : List Char),
      applyChangesLoop base cs = cs.foldl apply_change base
  | [], _ => rfl
  | c :: cs, base => applyChangesLoop_eq_foldl cs (apply_change base c)

/-- In a history sorted (non-strictly) ascending by time, stopping at the
first edit later than `t` collects exactly the edits with time `≤ t`. -/
theorem takeWhile_time_eq_filter (t : Int) :
    ∀ (l : List Edit), List.Pairwise (fun a b : Edit => a.time ≤ b.time) l →
      l.takeWhile (fun e => decide (e.time ≤ t)) =
        l.filter (fun e => decide (e.time ≤ t))
  | [], _ => rfl
  | a :: rest, h => by
    rcases List.pairwise_cons.mp h with ⟨ha, hrest⟩
    by_cases hat : a.time ≤ t
    · simp only [List.takeWhile_cons, List.filter_cons, decide_eq_true hat, if_pos trivial,
        cond_true, takeWhile_time_eq_filter t rest hrest]
    · have hall : ∀ e ∈ rest, ¬ (decide (e.time ≤ t) = true) := by
        intro e he hdec
        exact hat (le_trans (ha e he) (of_decide_eq_true hdec))
      simp only [List.takeWhile_cons, List.filter_cons, decide_eq_false hat, cond_false]
      exact (List.filter_eq_nil_iff.mpr hall).symm

/-- A prefix all of whose members satisfy `p` is a prefix of `takeWhile p`. -/
theorem prefix_takeWhile_of_all {α : Type} (p : α → Bool) :
    ∀ (l₁ l : List α), l₁ <+: l → (∀ a ∈ l₁, p a = true) → l₁ <+: l.takeWhile p
  | [], _, _, _ => List.nil_prefix
  | a :: l₁, l, hpre, hall => by
    rcases hpre with ⟨t, rfl⟩
    have hpa : p a = true := hall a (List.mem_cons_self a l₁)
    rw [List.cons_append, List.takeWhile_cons, hpa]
    simp only [if_pos trivial]
    exact List.cons_prefix_cons.mpr ⟨rfl,
      prefix_takeWhile_of_all p l₁ (l₁ ++ t) (l₁.prefix_append t)
        (fun b hb => hall b (List.mem_cons_of_mem a hb))⟩

/-- Unfolding of `get_version_at_time_file` when the collected edit
sequence is nonempty. -/
theorem get_version_at_time_file_of_last (fh : FileChangeHistory) (t : Int) (lastE : Edit)
    (h : (fh.edits_history.takeWhile (fun e => decide (e.time ≤ t))).getLast? = some lastE) :
    get_version_at_time_file fh t =
      get_file_contents (get_last_new_concrete_checkpoint lastE.base_change).contents
        (((fh.edits_history.takeWhile (fun e => decide (e.time ≤ t))).reverse.takeWhile
          (fun e => decide (e.base_change = lastE.base_change))).reverse) := by
  simp only [get_version_at_time_file, h]

/-- Unfolding of `get_version_at_time_file` when no edit qualifies. -/
theorem get_version_at_time_file_of_nil (fh : FileChangeHistory) (t : Int)
    (h : fh.edits_history.takeWhile (fun e => decide (e.time ≤ t)) = []) :
    get_version_at_time_file fh t =
      (get_last_new_concrete_checkpoint fh.last_checkpoint).contents := by
  simp only [get_version_at_time_file, h, List.getLast?_nil]

theorem filesSorted_iff_chain :
    ∀ l : List FileChangeHistory,
      filesSorted l = true ↔ List.Chain' (fun a b : FileChangeHistory => a.path < b.path) l
  | [] => by simp [filesSorted]
  | [a] => by simp [filesSorted]
  | a :: b :: rest => by
    rw [List.chain'_cons, ← filesSorted_iff_chain (b :: rest)]
    simp [filesSorted]

/-! Concrete fixtures used by witnesses and counterexamples. -/

/-- An alias checkpoint resolving to the text `hi`. -/
def cpAliasHi : ConcreteCheckpoint := .sameC (.newC ⟨['h', 'i'], 0⟩) 5

/-- An edit at time 10 anchored to the snapshot underlying `cpAliasHi`. -/
def editAt10 : Edit := ⟨"f", 10, .newC ⟨['h', 'i'], 0⟩, []⟩

/-- A one-edit file history whose last checkpoint is `cpAliasHi`. -/
def fhOneEdit : FileChangeHistory := ⟨"f", [editAt10], cpAliasHi⟩

/-- A one-file workspace built from `fhOneEdit`. -/
def whOneEdit : List (String × FileChangeHistory) := [("f", fhOneEdit)]

/-- A content change whose `rangeOffset` (5) lies outside `[0, 2]`. -/
def oobChange : ContentChange := ⟨⟨⟨0, 0⟩, ⟨0, 0⟩⟩, ['X'], 5, 0⟩

/-- C3: for every file history and query time `t` such that no edit has
time `≤ t`, `get_version_at_time` returns the resolved text of the file's
`last_checkpoint` — an answer that does not mention `t` at all, hence the
latest known snapshot content regardless of how early `t` is. -/
theorem C3_no_qualifying_edits (wh : List (String × FileChangeHistory))
    (file : String) (fh : FileChangeHistory) (t : Int)
    (hfind : dictLookup wh file = some fh)
    (hearly : ∀ e ∈ fh.edits_history, t < e.time) :
    get_version_at_time file wh t =
      .ok (get_last_new_concrete_checkpoint fh.last_checkpoint).contents := by
  have hnil : fh.edits_history.takeWhile (fun e => decide (e.time ≤ t)) = [] := by
    cases h : fh.edits_history with
    | nil => rfl
    | cons a rest =>
      have ha : t < a.time := hearly a (h ▸ List.mem_cons_self a rest)
      rw [List.takeWhile_cons, decide_eq_false (not_le.mpr ha)]
      rfl
  simp only [get_version_at_time, hfind]
  rw [get_version_at_time_file_of_nil fh t hnil]

/-- C3 witness: querying `whOneEdit` (single edit at time 10) at time 3
yields the resolved text of the alias `last_checkpoint`. -/
theorem C3_witness :
    get_version_at_time "f" whOneEdit 3 = .ok ['h', 'i'] := by
  have h := C3_no_qualifying_edits whOneEdit "f" fhOneEdit 3 rfl
    (by intro e he; simp only [fhOneEdit, whOneEdit] at he; simp at he; subst he; decide)
  simpa using h

/-- C5: resolving an alias checkpoint returns the same resolution (hence
the same text) as resolving its immediate `prev`, and resolving a chain of
N alias hops (any `N ≥ 0`, encoded by the list of hop mtimes) returns
exactly the terminal snapshot, hence its contents. -/
theorem C5_chain_resolution :
    (∀ (prev : ConcreteCheckpoint) (m : Int),
      get_last_new_concrete_checkpoint (.sameC prev m) =
        get_last_new_concrete_checkpoint prev) ∧
    (∀ (ms : List Int) (nc : NewConcreteCheckpoint),
      get_last_new_concrete_checkpoint (chainAliases ms (.newC nc)) = nc) ∧
    (∀ (ms : List Int) (nc : NewConcreteCheckpoint),
      (get_last_new_concrete_checkpoint (chainAliases ms (.newC nc))).contents =
        nc.contents) := by
  have hchain : ∀ (ms : List Int) (nc : NewConcreteCheckpoint),
      get_last_new_concrete_checkpoint (chainAliases ms (.newC nc)) = nc := by
    intro ms nc
    induction ms with
    | nil => rfl
    | cons m ms ih =>
      simpa [chainAliases, get_last_new_concrete_checkpoint] using ih
  exact ⟨fun _ _ => rfl, hchain, fun ms nc => by rw [hchain ms nc]⟩

/-- C7: for an in-bounds change, `apply_change` produces
`buffer[0:rangeOffset] + text + buffer[rangeOffset+rangeLength:]`;
`apply_edit` folds `apply_change` over the edit's changes strictly in list
order; an edit with an empty change list leaves the buffer unchanged. -/
theorem C7_apply_change_formula :
    (∀ (buffer : List Char) (change : ContentChange),
      0 ≤ change.rangeOffset → change.rangeOffset ≤ (buffer.length : Int) →
      0 ≤ change.rangeOffset + change.rangeLength →
      change.rangeOffset + change.rangeLength ≤ (buffer.length : Int) →
      apply_change buffer change =
        buffer.take change.rangeOffset.toNat ++ change.text
          ++ buffer.drop (change.rangeOffset + change.rangeLength).toNat) ∧
    (∀ (base : List Char) (edit : Edit),
      apply_edit base edit = edit.changes.foldl apply_change base) ∧
    (∀ (base : List Char) (edit : Edit),
      edit.changes = [] → apply_edit base edit = base) := by
  refine ⟨?_, ?_, ?_⟩
  · intro buffer change h1 _ h3 _
    unfold apply_change pySliceTo pySliceFrom pySliceIndex
    rw [if_neg (not_lt.mpr h1), if_neg (not_lt.mpr h3)]
  · intro base edit
    exact applyChangesLoop_eq_foldl edit.changes base
  · intro base edit h
    unfold apply_edit
    rw [h]
    rfl

/-- C7 witness: replacing one character in the middle of `abc`. -/
theorem C7_witness :
    apply_change ['a', 'b', 'c'] ⟨⟨⟨0, 1⟩, ⟨0, 2⟩⟩, ['X', 'Y'], 1, 1⟩ =
      ['a', 'X', 'Y', 'c'] := by
  have h := C7_apply_change_formula.1 ['a', 'b', 'c']
    ⟨⟨⟨0, 1⟩, ⟨0, 2⟩⟩, ['X', 'Y'], 1, 1⟩ (by decide) (by decide) (by decide) (by decide)
  simpa using h

/-- C4 counterexample: `oobChange` has `rangeOffset = 5`, outside
`[0, 2]` for the buffer `ab`, yet `apply_change` raises nothing — it
returns the clamped text `abX` — whereas the claimed strict policy
(`apply_change_strict`, modelled from the spec) would signal
`MalformedPatchError`. -/
theorem C4_counterexample :
    ¬ (oobChange.rangeOffset ≤ ((['a', 'b'] : List Char).length : Int)) ∧
    apply_change ['a', 'b'] oobChange = ['a', 'b', 'X'] ∧
    apply_change_strict ['a', 'b'] oobChange = .error .malformedPatch :=
  ⟨by decide, by decide, rfl⟩

/-- C4 amended: `apply_change` performs no bounds validation and never
raises; out-of-range positions are silently clamped by Python slice
semantics. An offset at or past the end of the buffer appends the text,
and an offset at or below `-len` with `rangeOffset + rangeLength ≥ len`
replaces the whole buffer by the text. -/
theorem C4_amended_clamping :
    (∀ (buffer : List Char) (change : ContentChange),
      (buffer.length : Int) ≤ change.rangeOffset → 0 ≤ change.rangeLength →
      apply_change buffer change = buffer ++ change.text) ∧
    (∀ (buffer : List Char) (change : ContentChange),
      change.rangeOffset ≤ -(buffer.length : Int) →
      (buffer.length : Int) ≤ change.rangeOffset + change.rangeLength →
      apply_change buffer change = change.text) := by
  constructor
  · intro buffer change hoff hlen
    have h0 : (0 : Int) ≤ change.rangeOffset :=
      le_trans (Int.ofNat_nonneg buffer.length) hoff
    have h0' : (0 : Int) ≤ change.rangeOffset + change.rangeLength :=
      le_trans h0 (le_add_of_nonneg_right hlen)
    unfold apply_change pySliceTo pySliceFrom pySliceIndex
    rw [if_neg (not_lt.mpr h0), if_neg (not_lt.mpr h0')]
    have htake : buffer.take change.rangeOffset.toNat = buffer :=
      List.take_of_length_le (by omega)
    have hdrop : buffer.drop (change.rangeOffset + change.rangeLength).toNat = [] :=
      List.drop_eq_nil_of_le (by omega)
    rw [htake, hdrop, List.append_nil]
  · intro buffer change hoff hlen
    unfold apply_change pySliceTo pySliceFrom pySliceIndex
    have htake : buffer.take (if change.rangeOffset < 0 then
        ((buffer.length : Int) + change.rangeOffset).toNat
      else change.rangeOffset.toNat) = [] := by
      by_cases h : change.rangeOffset < 0
      · rw [if_pos h, Int.toNat_eq_zero.mpr (by omega), List.take_zero]
      · rw [if_neg h]
        have hb : buffer = [] := List.length_eq_zero.mp (by omega)
        rw [hb, List.take_nil]
    have hdrop : buffer.drop (if change.rangeOffset + change.rangeLength < 0 then
        ((buffer.length : Int) + (change.rangeOffset + change.rangeLength)).toNat
      else (change.rangeOffset + change.rangeLength).toNat) = [] := by
      rw [if_neg (by omega)]
      exact List.drop_eq_nil_of_le (by omega)
    rw [htake, hdrop, List.nil_append, List.append_nil]

/-- C4 amended witness: the counterexample change appended at the end. -/
theorem C4_amended_witness :
    apply_change ['a', 'b'] oobChange = ['a', 'b'] ++ ['X'] := by
  have h := C4_amended_clamping.1 ['a', 'b'] oobChange (by decide) (by decide)
  simpa using h

/-- C9: pydantic construction of a `WorkspaceChangeHistory` succeeds
exactly when adjacent file paths are strictly ascending, and every
successfully constructed value keeps its file list, which is then
pairwise strictly ascending by path — in particular sorted with no
duplicate paths. -/
theorem C9_files_sorted (md : ChangeMetadata) (files : List FileChangeHistory) :
    ((∃ w, mkWorkspaceChangeHistory md files = .ok w) ↔
      List.Chain' (fun a b : FileChangeHistory => a.path < b.path) files) ∧
    (∀ w, mkWorkspaceChangeHistory md files = .ok w →
      w.metadata = md ∧ w.files = files ∧
      List.Pairwise (fun a b : FileChangeHistory => a.path < b.path) w.files ∧
      (w.files.map (fun f => f.path)).Nodup) := by
  haveI : IsTrans FileChangeHistory (fun a b : FileChangeHistory => a.path < b.path) :=
    ⟨fun _ _ _ h1 h2 => lt_trans h1 h2⟩
  have hok : ∀ w, mkWorkspaceChangeHistory md files = .ok w →
      filesSorted files = true ∧ w = ⟨md, files⟩ := by
    intro w hw
    unfold mkWorkspaceChangeHistory at hw
    by_cases hs : filesSorted files = true
    · rw [if_pos hs] at hw
      cases hw
      exact ⟨hs, rfl⟩
    · rw [if_neg hs] at hw
      cases hw
  constructor
  · constructor
    · rintro ⟨w, hw⟩
      exact (filesSorted_iff_chain files).mp (hok w hw).1
    · intro hchain
      refine ⟨⟨md, files⟩, ?_⟩
      unfold mkWorkspaceChangeHistory
      rw [if_pos ((filesSorted_iff_chain files).mpr hchain)]
  · intro w hw
    obtain ⟨hs, rfl⟩ := hok w hw
    have hpair : List.Pairwise (fun a b : FileChangeHistory => a.path < b.path) files :=
      List.chain'_iff_pairwise.mp ((filesSorted_iff_chain files).mp hs)
    refine ⟨rfl, rfl, hpair, ?_⟩
    rw [List.Nodup, List.pairwise_map]
    exact hpair.imp (fun h => ne_of_lt h)

/-- C9 witness: two files with ascending paths construct successfully and
carry distinct paths. -/
theorem C9_witness :
    (∃ w, mkWorkspaceChangeHistory (.localMeta ⟨"h", "u", "w"⟩)
      [⟨"a", [], cpAliasHi⟩, ⟨"b", [], cpAliasHi⟩] = .ok w) ∧
    ∀ w, mkWorkspaceChangeHistory (.localMeta ⟨"h", "u", "w"⟩)
        [⟨"a", [], cpAliasHi⟩, ⟨"b", [], cpAliasHi⟩] = .ok w →
      (w.files.map (fun f => f.path)).Nodup := by
  have h := C9_files_sorted (.localMeta ⟨"h", "u", "w"⟩)
    [⟨"a", [], cpAliasHi⟩, ⟨"b", [], cpAliasHi⟩]
  refine ⟨h.1.mpr ?_, fun w hw => (h.2 w hw).2.2.2⟩
  refine List.chain'_cons.mpr ⟨?_, List.chain'_singleton _⟩
  show ("a" : String) < "b"
  rw [String.lt_iff_toList_lt]
  decide

/-- C1: whenever some edit qualifies (`P`, the edits with time `≤ t`, is
nonempty — under the data-model invariant that `edits_history` ascends by
time, `P` is exactly the prefix the forward scan collects),
`get_version_at_time` replays exactly the longest contiguous trailing run
of `P` whose members share the base checkpoint of `P`'s last edit,
starting from that base's resolved text; earlier edits of `P` are not
replayed. -/
theorem C1_trailing_run (wh : List (String × FileChangeHistory)) (file : String)
    (fh : FileChangeHistory) (t : Int) (P : List Edit) (lastE : Edit)
    (hfind : dictLookup wh file = some fh)
    (hsort : List.Pairwise (fun a b : Edit => a.time ≤ b.time) fh.edits_history)
    (hP : P = fh.edits_history.filter (fun e => decide (e.time ≤ t)))
    (hlast : P.getLast? = some lastE) :
    ∃ run, run <:+ P ∧
      (∀ e ∈ run, e.base_change = lastE.base_change) ∧
      (∀ run', run' <:+ P → (∀ e ∈ run', e.base_change = lastE.base_change) →
        run'.length ≤ run.length) ∧
      get_version_at_time file wh t =
        .ok (get_file_contents
          (get_last_new_concrete_checkpoint lastE.base_change).contents run) := by
  have htf : fh.edits_history.takeWhile (fun e => decide (e.time ≤ t)) = P :=
    (takeWhile_time_eq_filter t fh.edits_history hsort).trans hP.symm
  refine ⟨(P.reverse.takeWhile
    (fun e => decide (e.base_change = lastE.base_change))).reverse, ?_, ?_, ?_, ?_⟩
  · have h1 : (P.reverse.takeWhile
        (fun e => decide (e.base_change = lastE.base_change))).reverse.reverse <+: P.reverse := by
      rw [List.reverse_reverse]
      exact List.takeWhile_prefix _
    exact List.reverse_prefix.mp h1
  · intro e he
    rw [List.mem_reverse] at he
    have hq := List.mem_takeWhile_imp he
    exact of_decide_eq_true hq
  · intro run' hsuf hall
    have hpre : run'.reverse <+: P.reverse := List.reverse_prefix.mpr hsuf
    have hpre2 : run'.reverse <+:
        P.reverse.takeWhile (fun e => decide (e.base_change = lastE.base_change)) :=
      prefix_takeWhile_of_all _ run'.reverse P.reverse hpre
        (fun a ha => decide_eq_true (hall a (List.mem_reverse.mp ha)))
    calc run'.length = run'.reverse.length := (List.length_reverse _).symm
      _ ≤ (P.reverse.takeWhile
            (fun e => decide (e.base_change = lastE.base_change))).length := hpre2.length_le
      _ = (P.reverse.takeWhile
            (fun e => decide (e.base_change = lastE.base_change))).reverse.length :=
        (List.length_reverse _).symm
  · simp only [get_version_at_time, hfind]
    rw [get_version_at_time_file_of_last fh t lastE (by rw [htf]; exact hlast), htf]

/-! The boundary scenario of spec §8: checkpoint `bC1`, edits `be1`, `be2`
anchored to it, a later checkpoint `bC2`, and edits `be3`, `be4` anchored
to `bC2`. -/

def bC1 : ConcreteCheckpoint := .newC ⟨[], 0⟩

def bC2 : ConcreteCheckpoint := .newC ⟨['a', 'b'], 3⟩

def be1 : Edit := ⟨"f", 1, bC1, [⟨⟨⟨0, 0⟩, ⟨0, 0⟩⟩, ['a'], 0, 0⟩]⟩

def be2 : Edit := ⟨"f", 2, bC1, [⟨⟨⟨0, 1⟩, ⟨0, 1⟩⟩, ['b'], 1, 0⟩]⟩

def be3 : Edit := ⟨"f", 4, bC2, [⟨⟨⟨0, 2⟩, ⟨0, 2⟩⟩, ['c'], 2, 0⟩]⟩

def be4 : Edit := ⟨"f", 5, bC2, [⟨⟨⟨0, 3⟩, ⟨0, 3⟩⟩, ['d'], 3, 0⟩]⟩

def bFh : FileChangeHistory := ⟨"f", [be1, be2, be3, be4], bC2⟩

def bWh : List (String × FileChangeHistory) := [("f", bFh)]

/-- C1 witness: the §8 boundary scenario queried at `be4`'s time. -/
theorem C1_witness :
    ∃ run, run <:+ [be1, be2, be3, be4] ∧
      (∀ e ∈ run, e.base_change = be4.base_change) ∧
      (∀ run', run' <:+ [be1, be2, be3, be4] →
        (∀ e ∈ run', e.base_change = be4.base_change) → run'.length ≤ run.length) ∧
      get_version_at_time "f" bWh 5 =
        .ok (get_file_contents
          (get_last_new_concrete_checkpoint be4.base_change).contents run) :=
  C1_trailing_run bWh "f" bFh 5 [be1, be2, be3, be4] be4 rfl
    (by decide) (by decide) (by decide)

/-! Python list subscription helpers. -/

theorem pyListGet_nonneg {α : Type} (l : List α) (idx : Int) (h : 0 ≤ idx) :
    pyListGet l idx = l.get? idx.toNat := by
  unfold pyListGet
  simp only [if_neg (not_lt.mpr h)]

theorem pyListGet_neg {α : Type} (l : List α) (idx : Int)
    (h1 : -(l.length : Int) ≤ idx) (h2 : idx < 0) :
    pyListGet l idx = l.get? ((l.length : Int) + idx).toNat := by
  unfold pyListGet
  simp only [if_pos h2]
  rw [if_neg (by omega)]

theorem pyListGet_neg_oob {α : Type} (l : List α) (idx : Int)
    (h : idx < -(l.length : Int)) :
    pyListGet l idx = none := by
  unfold pyListGet
  simp only [if_pos (by omega : idx < 0)]
  rw [if_pos (by omega)]

theorem pyListGet_some {α : Type} (l : List α) (idx : Int)
    (h1 : -(l.length : Int) ≤ idx) (h2 : idx < (l.length : Int)) :
    ∃ e, pyListGet l idx = some e := by
  by_cases h : idx < 0
  · rw [pyListGet_neg l idx h1 h]
    have hlt : ((l.length : Int) + idx).toNat < l.length := by omega
    exact ⟨l.get ⟨_, hlt⟩, List.get?_eq_get hlt⟩
  · rw [pyListGet_nonneg l idx (not_lt.mp h)]
    have hlt : idx.toNat < l.length := by omega
    exact ⟨l.get ⟨_, hlt⟩, List.get?_eq_get hlt⟩

/-- `get_version_at_edit` when the subscript succeeds. -/
theorem get_version_at_edit_of_some (wh : List (String × FileChangeHistory))
    (file : String) (fh : FileChangeHistory) (idx : Int) (e : Edit)
    (hfind : dictLookup wh file = some fh)
    (hlt : idx < (fh.edits_history.length : Int))
    (hget : pyListGet fh.edits_history idx = some e) :
    get_version_at_edit file wh idx =
      .ok (wh.map (fun p => (p.1, get_version_at_time_file p.2 e.time))) := by
  simp only [get_version_at_edit, hfind]
  rw [if_neg (not_le.mpr hlt), hget]

/-- Looking a key up after mapping the values maps the lookup result. -/
theorem dictLookup_map {α β : Type} (F : α → β) :
    ∀ (l : List (String × α)) (key : String),
      dictLookup (l.map (fun p => (p.1, F p.2))) key = (dictLookup l key).map F
  | [], _ => rfl
  | (k, v) :: rest, key => by
    by_cases h : k = key
    · simp [dictLookup, h]
    · simp [dictLookup, h, dictLookup_map F rest key]

/-- C6 counterexample: in `whOneEdit` the file has one edit, and `-2 < 1`
is not caught by the `edit_idx < len(edits_history)` assertion, yet
`get_version_at_edit` does not return a mapping: subscripting
`edits_history[-2]` raises Python's `IndexError` (not `IndexOutOfRange`). -/
theorem C6_counterexample :
    ((-2 : Int) < (fhOneEdit.edits_history.length : Int)) ∧
    get_version_at_edit "f" whOneEdit (-2) = .error .pyIndexError :=
  ⟨by decide, rfl⟩

/-- C6 amended: `get_version_at_edit` fails with `IndexOutOfRange` when
`index ≥ len(edits_history)`; when `-len ≤ index < len` it takes the
target edit by Python subscripting (negative indices count from the end)
and returns the mapping whose domain is exactly the workspace's files, in
order, each file mapped to its version at the target edit's time; but when
`index < -len` it fails with Python's `IndexError` instead of returning. -/
theorem C6_amended (wh : List (String × FileChangeHistory)) (file : String)
    (fh : FileChangeHistory) (idx : Int)
    (hfind : dictLookup wh file = some fh) :
    ((fh.edits_history.length : Int) ≤ idx →
      get_version_at_edit file wh idx = .error .indexOutOfRange) ∧
    (idx < -(fh.edits_history.length : Int) →
      get_version_at_edit file wh idx = .error .pyIndexError) ∧
    (-(fh.edits_history.length : Int) ≤ idx → idx < (fh.edits_history.length : Int) →
      ∃ e, pyListGet fh.edits_history idx = some e ∧
        get_version_at_edit file wh idx =
          .ok (wh.map (fun p => (p.1, get_version_at_time_file p.2 e.time))) ∧
        (wh.map (fun p => (p.1, get_version_at_time_file p.2 e.time))).map Prod.fst =
          wh.map Prod.fst ∧
        ∀ g, dictLookup (wh.map (fun p => (p.1, get_version_at_time_file p.2 e.time))) g =
          (dictLookup wh g).map (fun fh2 => get_version_at_time_file fh2 e.time)) := by
  refine ⟨?_, ?_, ?_⟩
  · intro h
    simp only [get_version_at_edit, hfind]
    rw [if_pos h]
  · intro h
    simp only [get_version_at_edit, hfind]
    rw [if_neg (by omega), pyListGet_neg_oob fh.edits_history idx h]
  · intro h1 h2
    obtain ⟨e, he⟩ := pyListGet_some fh.edits_history idx h1 h2
    refine ⟨e, he, get_version_at_edit_of_some wh file fh idx e hfind h2 he, ?_, ?_⟩
    · simp [List.map_map, Function.comp]
    · intro g
      exact dictLookup_map (fun fh2 => get_version_at_time_file fh2 e.time) wh g

/-- C6 amended witness: `whOneEdit` at index 0 returns the snapshot at the
single edit's time, and at index 1 fails with `IndexOutOfRange`. -/
theorem C6_amended_witness :
    get_version_at_edit "f" whOneEdit 1 = .error .indexOutOfRange ∧
    ∃ e, pyListGet fhOneEdit.edits_history 0 = some e ∧
      get_version_at_edit "f" whOneEdit 0 =
        .ok (whOneEdit.map (fun p => (p.1, get_version_at_time_file p.2 e.time))) := by
  have h := C6_amended whOneEdit "f" fhOneEdit 1 rfl
  have h0 := C6_amended whOneEdit "f" fhOneEdit 0 rfl
  refine ⟨h.1 (by decide), ?_⟩
  obtain ⟨e, he, hok, -⟩ := h0.2.2 (by decide) (by decide)
  exact ⟨e, he, hok⟩

/-- C10: for a nonempty history and a negative index with
`-len ≤ index < 0`, `get_version_at_edit` does not hit the
`IndexOutOfRange` assertion (it only checks `index < len`): Python
subscripting selects `edits_history[len + index]` and the cross-file
snapshot at that edit's time is returned. -/
theorem C10_negative_index (wh : List (String × FileChangeHistory)) (file : String)
    (fh : FileChangeHistory) (idx : Int)
    (hfind : dictLookup wh file = some fh)
    (h1 : -(fh.edits_history.length : Int) ≤ idx) (h2 : idx < 0) :
    ∃ e, fh.edits_history.get? ((fh.edits_history.length : Int) + idx).toNat = some e ∧
      get_version_at_edit file wh idx =
        .ok (wh.map (fun p => (p.1, get_version_at_time_file p.2 e.time))) := by
  have hlt : idx < (fh.edits_history.length : Int) := by omega
  obtain ⟨e, he⟩ := pyListGet_some fh.edits_history idx h1 hlt
  refine ⟨e, ?_, get_version_at_edit_of_some wh file fh idx e hfind hlt he⟩
  rw [← pyListGet_neg fh.edits_history idx h1 h2]
  exact he

/-- C10 witness: index `-1` into the single-edit history of `whOneEdit`. -/
theorem C10_witness :
    ∃ e, fhOneEdit.edits_history.get?
        ((fhOneEdit.edits_history.length : Int) + (-1)).toNat = some e ∧
      get_version_at_edit "f" whOneEdit (-1) =
        .ok (whOneEdit.map (fun p => (p.1, get_version_at_time_file p.2 e.time))) :=
  C10_negative_index whOneEdit "f" fhOneEdit (-1) rfl (by decide) (by decide)

/-! Structure of the linear histories produced by `get_linear_file_history`. -/

theorem linearEditsLoop_cons (f : String) (co : ConcreteCheckpoint) (δ : Int)
    (ch : Char) (rest : List Char) (i : Nat) (t l c : Int) :
    linearEditsLoop f co δ (ch :: rest) i t l c =
      (⟨f, t + δ, co, [⟨⟨⟨l, c⟩, ⟨l, c + 1⟩⟩, [ch], (i : Int), 1⟩]⟩ : Edit) ::
        (if ch = '\n' then linearEditsLoop f co δ rest (i + 1) (t + δ) (l + 1) 0
         else linearEditsLoop f co δ rest (i + 1) (t + δ) l (c + 1)) := rfl

theorem linearEditsLoop_length (f : String) (co : ConcreteCheckpoint) (δ : Int) :
    ∀ (rest : List Char) (i : Nat) (t l c : Int),
      (linearEditsLoop f co δ rest i t l c).length = rest.length
  | [], _, _, _, _ => rfl
  | ch :: rest, i, t, l, c => by
    unfold linearEditsLoop
    by_cases hch : ch = '\n' <;>
      simp [hch, linearEditsLoop_length f co δ rest]

theorem linearEditsLoop_base (f : String) (co : ConcreteCheckpoint) (δ : Int) :
    ∀ (rest : List Char) (i : Nat) (t l c : Int),
      ∀ e ∈ linearEditsLoop f co δ rest i t l c, e.base_change = co
  | [], _, _, _, _ => by simp [linearEditsLoop]
  | ch :: rest, i, t, l, c => by
    unfold linearEditsLoop
    by_cases hch : ch = '\n' <;>
      simp only [hch, if_pos, if_neg, ite_true, ite_false, List.mem_cons] <;>
      rintro e (rfl | he) <;>
      first
        | rfl
        | exact linearEditsLoop_base f co δ rest _ _ _ _ e he

theorem linearEditsLoop_get?_time (f : String) (co : ConcreteCheckpoint) (δ : Int) :
    ∀ (rest : List Char) (j : Nat) (i : Nat) (t l c : Int), j < rest.length →
      ∃ e, (linearEditsLoop f co δ rest i t l c).get? j = some e ∧
        e.time = t + ((j : Int) + 1) * δ
  | [], j, _, _, _, _, h => absurd h (by simp)
  | ch :: rest, 0, i, t, l, c, _ => by
    unfold linearEditsLoop
    refine ⟨_, rfl, ?_⟩
    show t + δ = t + ((0 : Int) + 1) * δ
    ring
  | ch :: rest, j + 1, i, t, l, c, h => by
    unfold linearEditsLoop
    have hj : j < rest.length := by simpa using h
    by_cases hch : ch = '\n' <;> simp only [hch, ite_true, ite_false, List.get?_cons_succ]
    · obtain ⟨e, hg, ht⟩ :=
        linearEditsLoop_get?_time f co δ rest j (i + 1) (t + δ) (l + 1) 0 hj
      exact ⟨e, hg, by rw [ht]; push_cast; ring⟩
    · obtain ⟨e, hg, ht⟩ :=
        linearEditsLoop_get?_time f co δ rest j (i + 1) (t + δ) l (c + 1) hj
      exact ⟨e, hg, by rw [ht]; push_cast; ring⟩

theorem linearEditsLoop_take (f : String) (co : ConcreteCheckpoint) (δ : Int) :
    ∀ (rest : List Char) (k : Nat) (i : Nat) (t l c : Int),
      (linearEditsLoop f co δ rest i t l c).take k =
        linearEditsLoop f co δ (rest.take k) i t l c
  | [], k, _, _, _, _ => by simp [linearEditsLoop]
  | _ :: _, 0, _, _, _, _ => rfl
  | ch :: rest, k + 1, i, t, l, c => by
    unfold linearEditsLoop
    by_cases hch : ch = '\n' <;>
      simp [hch, List.take_cons, linearEditsLoop_take f co δ rest k]

theorem linearEditsLoop_takeWhile_nil (f : String) (co : ConcreteCheckpoint) (δ : Int) :
    ∀ (rest : List Char) (i : Nat) (t l c : Int) (T : Int), T < t + δ →
      (linearEditsLoop f co δ rest i t l c).takeWhile
        (fun e => decide (e.time ≤ T)) = []
  | [], _, _, _, _, _, _ => rfl
  | ch :: rest, i, t, l, c, T, hT => by
    unfold linearEditsLoop
    rw [List.takeWhile_cons]
    simp only [decide_eq_false (not_le.mpr hT)]
    rfl

theorem linearEditsLoop_takeWhile (f : String) (co : ConcreteCheckpoint) (δ : Int)
    (hδ : 0 < δ) :
    ∀ (rest : List Char) (k : Nat) (i : Nat) (t l c : Int), k < rest.length →
      (linearEditsLoop f co δ rest i t l c).takeWhile
          (fun e => decide (e.time ≤ t + ((k : Int) + 1) * δ)) =
        (linearEditsLoop f co δ rest i t l c).take (k + 1)
  | [], k, _, _, _, _, h => absurd h (by simp)
  | ch :: rest, k, i, t, l, c, h => by
    have hhead : t + δ ≤ t + ((k : Int) + 1) * δ := by
      have h1 : (1 : Int) ≤ (k : Int) + 1 := by omega
      have := mul_le_mul_of_nonneg_right h1 (le_of_lt hδ)
      omega
    unfold linearEditsLoop
    rw [List.takeWhile_cons]
    simp only [decide_eq_true hhead, if_pos trivial, cond_true, List.take_cons]
    cases k with
    | zero =>
      have hz : t + (((0 : Nat) : Int) + 1) * δ = t + δ := by
        push_cast
        ring
      simp only [hz, List.take_succ_cons, List.take_zero]
      by_cases hch : ch = '\n'
      · rw [if_pos hch,
          linearEditsLoop_takeWhile_nil f co δ rest (i + 1) (t + δ) (l + 1) 0 (t + δ)
            (by omega)]
      · rw [if_neg hch,
          linearEditsLoop_takeWhile_nil f co δ rest (i + 1) (t + δ) l (c + 1) (t + δ)
            (by omega)]
    | succ k' =>
      have hbound : t + (((k' + 1 : Nat) : Int) + 1) * δ =
          (t + δ) + (((k' : Nat) : Int) + 1) * δ := by
        push_cast
        ring
      simp only [hbound]
      have hk' : k' < rest.length := by simpa using h
      by_cases hch : ch = '\n' <;>
        simp [hch, linearEditsLoop_takeWhile f co δ hδ rest k' _ _ _ _ hk']

theorem linearEditsLoop_replay (f : String) (co : ConcreteCheckpoint) (δ : Int) :
    ∀ (rest : List Char) (buf : List Char) (i : Nat) (t l c : Int),
      buf.length = i →
      get_file_contents buf (linearEditsLoop f co δ rest i t l c) = buf ++ rest
  | [], buf, _, _, _, _, _ => by simp [linearEditsLoop, get_file_contents]
  | ch :: rest, buf, i, t, l, c, hlen => by
    have happly : apply_change buf ⟨⟨⟨l, c⟩, ⟨l, c + 1⟩⟩, [ch], (i : Int), 1⟩ =
        buf ++ [ch] := by
      unfold apply_change pySliceTo pySliceFrom pySliceIndex
      have hto : ¬ ((i : Int) < 0) := by omega
      have hto1 : ¬ ((i : Int) + 1 < 0) := by omega
      rw [if_neg hto, if_neg hto1]
      have h1 : (i : Int).toNat = buf.length := by omega
      have h2 : ((i : Int) + 1).toNat = buf.length + 1 := by omega
      rw [h1, h2, List.take_length, List.drop_eq_nil_of_le (by omega), List.append_nil]
    rw [linearEditsLoop_cons]
    by_cases hch : ch = '\n'
    · rw [if_pos hch]
      show get_file_contents (applyChangesLoop buf _) _ = _
      simp only [applyChangesLoop, happly]
      rw [linearEditsLoop_replay f co δ rest (buf ++ [ch]) (i + 1) (t + δ) (l + 1) 0
        (by simp [hlen])]
      simp
    · rw [if_neg hch]
      show get_file_contents (applyChangesLoop buf _) _ = _
      simp only [applyChangesLoop, happly]
      rw [linearEditsLoop_replay f co δ rest (buf ++ [ch]) (i + 1) (t + δ) l (c + 1)
        (by simp [hlen])]
      simp

/-- The version of a linear file history at the time of its `k`-th edit is
the `(k+1)`-character prefix of the target contents. -/
theorem linear_version_at_time (file : String) (S : List Char) (start δ : Int)
    (hδ : 0 < δ) (k : Nat) (hk : k < S.length) :
    get_version_at_time_file (get_linear_file_history file S start δ)
      (start + ((k : Int) + 1) * δ) = S.take (k + 1) := by
  have hist : (get_linear_file_history file S start δ).edits_history =
      linearEditsLoop file (.newC ⟨[], start⟩) δ S 0 start 0 0 := rfl
  set co : ConcreteCheckpoint := .newC ⟨[], start⟩ with hco
  set L := linearEditsLoop file co δ S 0 start 0 0 with hL
  have hTW : L.takeWhile (fun e => decide (e.time ≤ start + ((k : Int) + 1) * δ)) =
      L.take (k + 1) :=
    linearEditsLoop_takeWhile file co δ hδ S k 0 start 0 0 hk
  have htake : L.take (k + 1) = linearEditsLoop file co δ (S.take (k + 1)) 0 start 0 0 :=
    linearEditsLoop_take file co δ S (k + 1) 0 start 0 0
  have hlen : (L.take (k + 1)).length = k + 1 := by
    rw [List.length_take, hL, linearEditsLoop_length]
    omega
  have hne : L.take (k + 1) ≠ [] := by
    intro hnil
    rw [hnil] at hlen
    simp at hlen
  have hlast? : (L.take (k + 1)).getLast? = some ((L.take (k + 1)).getLast hne) :=
    List.getLast?_eq_getLast_of_ne_nil hne
  set lastE := (L.take (k + 1)).getLast hne with hlastE
  have hbase : lastE.base_change = co := by
    have hmem : lastE ∈ L.take (k + 1) := List.getLast_mem hne
    rw [htake] at hmem
    exact linearEditsLoop_base file co δ (S.take (k + 1)) 0 start 0 0 lastE hmem
  have hval := get_version_at_time_file_of_last
    (get_linear_file_history file S start δ) (start + ((k : Int) + 1) * δ) lastE
    (by rw [hist, hTW]; exact hlast?)
  rw [hval, hist, hTW]
  have hq : ∀ e ∈ (L.take (k + 1)).reverse,
      (fun e : Edit => decide (e.base_change = lastE.base_change)) e = true := by
    intro e he
    apply decide_eq_true
    rw [hbase]
    have hmem := List.mem_reverse.mp he
    rw [htake] at hmem
    exact linearEditsLoop_base file co δ (S.take (k + 1)) 0 start 0 0 e hmem
  rw [List.takeWhile_eq_self_iff.mpr hq, List.reverse_reverse, hbase]
  show get_file_contents ([] : List Char) (L.take (k + 1)) = S.take (k + 1)
  rw [htake, linearEditsLoop_replay file co δ (S.take (k + 1)) [] 0 start 0 0 rfl]
  rfl

/-- C2: for every string `S`, the linear single-character history built by
`get_linear_file_history` (times strictly increasing, all edits anchored to
the one empty snapshot) satisfies the prefix law: for every `i <
len(S)`, `get_version_at_edit` at index `i` maps the file to exactly the
prefix `S[0:i+1]`. -/
theorem C2_prefix_law (S : List Char) (file : String) (start δ : Int) (hδ : 0 < δ)
    (i : Nat) (hi : i < S.length) :
    ∃ m, get_version_at_edit file [(file, get_linear_file_history file S start δ)]
        ((i : Nat) : Int) = .ok m ∧
      dictLookup m file = some (S.take (i + 1)) := by
  set fh := get_linear_file_history file S start δ with hfh
  have hist : fh.edits_history = linearEditsLoop file (.newC ⟨[], start⟩) δ S 0 start 0 0 :=
    rfl
  have hfind : dictLookup [(file, fh)] file = some fh := by simp [dictLookup]
  have hlen : fh.edits_history.length = S.length := by
    rw [hist, linearEditsLoop_length]
  obtain ⟨e, hget, htime⟩ :=
    linearEditsLoop_get?_time file (.newC ⟨[], start⟩) δ S i 0 start 0 0 hi
  have hpy : pyListGet fh.edits_history ((i : Nat) : Int) = some e := by
    rw [pyListGet_nonneg fh.edits_history _ (by omega)]
    have hcast : (((i : Nat) : Int)).toNat = i := by omega
    rw [hcast, hist]
    exact hget
  have hok := get_version_at_edit_of_some [(file, fh)] file fh ((i : Nat) : Int) e hfind
    (by omega) hpy
  refine ⟨_, hok, ?_⟩
  have hlook : dictLookup
      ([(file, fh)].map (fun p => (p.1, get_version_at_time_file p.2 e.time))) file =
      some (get_version_at_time_file fh e.time) := by
    simp [dictLookup]
  rw [hlook, htime]
  rw [hfh]
  rw [linear_version_at_time file S start δ hδ i hi]

/-- C2 witness: the two-character contents `ab` at edit index 1. -/
theorem C2_witness :
    ∃ m, get_version_at_edit "f" [("f", get_linear_file_history "f" ['a', 'b'] 0 1)]
        ((1 : Nat) : Int) = .ok m ∧
      dictLookup m "f" = some (['a', 'b'].take 2) :=
  C2_prefix_law ['a', 'b'] "f" 0 1 (by decide) 1 (by decide)

/-- C8: both decoders dispatch on the record's `type` tag: a tag other
than the known ones (`new`/`same` for checkpoints, `git`/`local` for
metadata) raises `ValueError` — never a silent default — and a known tag
hands the record to the corresponding variant's decoder, so a successful
decode returns that variant. -/
theorem C8_tag_dispatch (j v : Json) (hty : jGet j "type" = .ok v) :
    ((v ≠ .jstr "new" ∧ v ≠ .jstr "same") →
      raw_concrete_checkpoint_from_json j =
        .error (.valueError "Unknown checkpoint type")) ∧
    (v = .jstr "new" → raw_concrete_checkpoint_from_json j =
      RawConcreteCheckpoint.newR <$> NewConcreteCheckpoint.from_ts_dict j) ∧
    (v = .jstr "same" → raw_concrete_checkpoint_from_json j =
      RawConcreteCheckpoint.sameR <$> RawSameConcreteCheckpoint.from_ts_dict j) ∧
    ((v ≠ .jstr "git" ∧ v ≠ .jstr "local") →
      metadata_from_ts_dict j = .error (.valueError "Unknown metadata type")) ∧
    (v = .jstr "git" → metadata_from_ts_dict j =
      ChangeMetadata.gitMeta <$> GitChangeMetadata.from_ts_dict j) ∧
    (v = .jstr "local" → metadata_from_ts_dict j =
      ChangeMetadata.localMeta <$> LocalChangeMetadata.from_ts_dict j) := by
  have hraw : ∀ w : Json, jGet j "type" = .ok w →
      raw_concrete_checkpoint_from_json j =
        (match w with
          | .jstr "same" =>
            RawConcreteCheckpoint.sameR <$> RawSameConcreteCheckpoint.from_ts_dict j
          | .jstr "new" =>
            RawConcreteCheckpoint.newR <$> NewConcreteCheckpoint.from_ts_dict j
          | _ => .error (.valueError "Unknown checkpoint type")) := by
    intro w hw
    unfold raw_concrete_checkpoint_from_json
    simp only [hw]
    rfl
  have hmeta : ∀ w : Json, jGet j "type" = .ok w →
      metadata_from_ts_dict j =
        (match w with
          | .jstr "git" => ChangeMetadata.gitMeta <$> GitChangeMetadata.from_ts_dict j
          | .jstr "local" =>
            ChangeMetadata.localMeta <$> LocalChangeMetadata.from_ts_dict j
          | _ => .error (.valueError "Unknown metadata type")) := by
    intro w hw
    unfold metadata_from_ts_dict
    simp only [hw]
    rfl
  refine ⟨?_, ?_, ?_, ?_, ?_, ?_⟩
  · rintro ⟨h1, h2⟩
    rw [hraw v hty]
    split
    · exact absurd rfl h2
    · exact absurd rfl h1
    · rfl
  · intro h
    subst h
    rw [hraw (.jstr "new") hty]
    rfl
  · intro h
    subst h
    rw [hraw (.jstr "same") hty]
    rfl
  · rintro ⟨h1, h2⟩
    rw [hmeta v hty]
    split
    · exact absurd rfl h1
    · exact absurd rfl h2
    · rfl
  · intro h
    subst h
    rw [hmeta (.jstr "git") hty]
    rfl
  · intro h
    subst h
    rw [hmeta (.jstr "local") hty]
    rfl

/-- A record carrying an unknown discriminant tag. -/
def jWeird : Json := .jobj [("type", .jstr "weird")]

/-- A well-formed `new` checkpoint record. -/
def jNewRecord : Json :=
  .jobj [("type", .jstr "new"), ("contents", .jstr "x"), ("mtime", .jnum 7)]

/-- C8 witness: the unknown tag `weird` is rejected by both decoders, and
a well-formed `new` record decodes to the snapshot variant. -/
theorem C8_witness :
    raw_concrete_checkpoint_from_json jWeird =
      .error (.valueError "Unknown checkpoint type") ∧
    metadata_from_ts_dict jWeird = .error (.valueError "Unknown metadata type") ∧
    raw_concrete_checkpoint_from_json jNewRecord = .ok (.newR ⟨['x'], 7⟩) := by
  have h := C8_tag_dispatch jWeird (.jstr "weird") rfl
  have h2 := C8_tag_dispatch jNewRecord (.jstr "new") rfl
  have hne : ∀ s : String, s ≠ "weird" → Json.jstr "weird" ≠ Json.jstr s := by
    intro s hs hx
    injection hx with hx'
    exact hs hx'.symm
  refine ⟨h.1 ⟨hne "new" (by decide), hne "same" (by decide)⟩,
    (h.2.2.2.1 ⟨hne "git" (by decide), hne "local" (by decide)⟩), ?_⟩
  rw [h2.2.1 rfl]
  rfl

end EditData
